import Mathlib

/-!
Shallow embedding of the expense-tracker backend (src/backend/server.js).

Modelling conventions:
* JavaScript numbers are modelled exactly: finite values as rationals and the
  value NaN as `none` of `Option ℚ`.
* Request-body fields `category`, `date` and `description` are modelled as
  `Option String`; `none` covers an absent field and JSON `null`, which the
  handlers treat alike (through falsiness for `category`/`date`).  The `amount`
  field, whose handling distinguishes numbers, strings and absence, is modelled
  by `JsVal`.
* The runtime's `toLowerCase`/`trim` are modelled on the character list (ASCII
  case folding and ASCII whitespace, which covers the data of this program).
* The in-memory store `expenses` is a `List Expense` threaded explicitly; the
  category registry `categories` is a `List String`.
* The summary accumulator is a plain object literal, modelled with its
  `Object.prototype` chain: a read of an absent key named after an inherited
  member finds a truthy function or object, turning the total into a string by
  concatenation (`SVal.str`), and assignment to the key "__proto__" invokes
  the inherited setter and creates no own property.
* Addition of amounts is modelled over exact rationals.  Every equality this
  file states between two program quantities relates folds over the identical
  operand sequence, so it holds for any addition operator, IEEE-754 double
  addition included; identities that would reassociate the program's
  floating-point additions, or that depend on the rounding of computed
  doubles, are not asserted.
-/

namespace ExpenseTracker

/-- JavaScript values that can arrive in the `amount` slot of a request body. -/
inductive JsVal where
  | undef : JsVal
  | jsNull : JsVal
  | num : ℚ → JsVal
  | nan : JsVal
  | str : String → JsVal
deriving DecidableEq

/-- Truthiness of a JavaScript value; the guard `!amount` of server.js is
`!truthy amount`. -/
def truthy : JsVal → Bool
  | .undef => false
  | .jsNull => false
  | .num q => if q = 0 then false else true
  | .nan => false
  | .str s => if s = "" then false else true

/-- Truthiness of a string-or-absent body field (`!category`, `!date`). -/
def truthyStr : Option String → Bool
  | none => false
  | some s => if s = "" then false else true

/-- Numeric value of a string of decimal digits. -/
def digitsToNat (l : List Char) : Nat :=
  l.foldl (fun a c => a * 10 + (c.toNat - 48)) 0

/-- Model of JavaScript `parseFloat` on strings: leading ASCII whitespace, an
optional sign, then decimal digits with an optional fractional part; trailing
characters are ignored and a string with no leading digits yields NaN
(`none`).  Exponent notation and the `Infinity` literals, which nothing in the
claims exercises, are not modelled. -/
def parseFloatStr (s : String) : Option ℚ :=
  let cs := s.data.dropWhile (fun c => c == ' ' || c == '\t' || c == '\n' || c == '\r')
  let signed : ℚ × List Char :=
    match cs with
    | '-' :: r => (-1, r)
    | '+' :: r => (1, r)
    | r => (1, r)
  let intPart := signed.2.takeWhile Char.isDigit
  let rest := signed.2.dropWhile Char.isDigit
  let fracPart :=
    match rest with
    | '.' :: r => r.takeWhile Char.isDigit
    | _ => []
  if intPart.isEmpty && fracPart.isEmpty then none
  else
    some (signed.1 * ((digitsToNat intPart : ℚ)
      + (digitsToNat fracPart : ℚ) / ((10 : ℚ) ^ fracPart.length)))

/-- JavaScript `parseFloat` on the modelled values: numbers pass through, NaN
stays NaN, strings are parsed; `undefined` and `null` stringify to text with no
leading digits, hence NaN. -/
def parseFloat : JsVal → Option ℚ
  | .num q => some q
  | .nan => none
  | .str s => parseFloatStr s
  | .undef => none
  | .jsNull => none

/-- One stored expense record, an element of the `expenses` array of
server.js.  The amount slot holds a JavaScript number (`none` is NaN). -/
structure Expense where
  id : String
  amount : Option ℚ
  category : String
  date : String
  description : String
deriving DecidableEq

/-- Outcome of a request handler: HTTP status with payload, or status with an
error message, mirroring the `success: true/false` envelopes of server.js. -/
inductive HResult (α : Type) where
  | ok : Nat → α → HResult α
  | err : Nat → String → HResult α
deriving DecidableEq

def HResult.isErr {α : Type} : HResult α → Bool
  | .ok _ _ => false
  | .err _ _ => true

def HResult.statusOf {α : Type} : HResult α → Nat
  | .ok s _ => s
  | .err s _ => s

/-- ASCII lowercasing, modelling `String.prototype.toLowerCase` on the data of
this application. -/
def lowerStr (s : String) : String := ⟨s.data.map Char.toLower⟩

/-- The case-insensitive comparison written in server.js as
`a.toLowerCase() === b.toLowerCase()`. -/
def matchesCI (a b : String) : Bool := lowerStr a == lowerStr b

def isWs (c : Char) : Bool := c == ' ' || c == '\t' || c == '\n' || c == '\r'

/-- ASCII-whitespace trim, modelling `String.prototype.trim`. -/
def trimStr (s : String) : String :=
  ⟨((s.data.dropWhile isWs).reverse.dropWhile isWs).reverse⟩

/-- Filtering of GET /api/expenses.  `none` is an absent `?category=` query
parameter; the guard `category && category !== 'All'` keeps the whole store for
an absent, empty or sentinel "All" filter. -/
def listExpenses (st : List Expense) (filt : Option String) : List Expense :=
  match filt with
  | none => st
  | some c =>
      if c ≠ "" ∧ c ≠ "All" then st.filter (fun e => matchesCI e.category c) else st

/-- Full handler of GET /api/expenses; its body cannot throw, so the catch
branch with status 500 is unreachable. -/
def getExpenses (st : List Expense) (filt : Option String) : HResult (List Expense) :=
  .ok 200 (listExpenses st filt)

/-- Addition of JavaScript numbers: NaN propagates. -/
def jsAdd : Option ℚ → Option ℚ → Option ℚ
  | some a, some b => some (a + b)
  | _, _ => none

/-- Reduce-style sum with initial value 0, as in
`reduce((sum, e) => sum + e.amount, 0)`. -/
def jsSum (l : List (Option ℚ)) : Option ℚ := l.foldl jsAdd (some 0)

/-- Values held in the summary accumulator object: a JavaScript number
(`none` is NaN), or a string.  A string arises when `(acc[c] || 0)` reads a
truthy member inherited from `Object.prototype` (a function, or the prototype
object itself) and the following `+ e.amount` concatenates; its exact text is
implementation-defined and never relevant, so all such strings are one
constructor.  Concatenating anything onto such a string yields a string again,
and the strings produced here are never empty, hence always truthy. -/
inductive SVal where
  | num : Option ℚ → SVal
  | str : SVal
deriving DecidableEq

/-- The own property names of `Object.prototype`: for exactly these keys a
read of the plain accumulator object with no own property finds a truthy
inherited member instead of undefined. -/
def protoKeys : List String :=
  ["constructor", "hasOwnProperty", "isPrototypeOf", "propertyIsEnumerable",
   "toLocaleString", "toString", "valueOf", "__defineGetter__",
   "__defineSetter__", "__lookupGetter__", "__lookupSetter__", "__proto__"]

/-- The summary accumulator object: its own-property list in insertion order
(`Object.entries` enumerates own properties only). -/
abbrev Acc := List (String × SVal)

/-- Own-property read. -/
def lookupAcc : Acc → String → Option SVal
  | [], _ => none
  | p :: rest, c => if p.1 = c then some p.2 else lookupAcc rest c

/-- Own-property write `acc[c] = v`: update in place, or append a new
property (for an inherited data-property name such as "toString" the write
shadows the prototype with an own property). -/
def setKey : Acc → String → SVal → Acc
  | [], c, v => [(c, v)]
  | p :: rest, c, v => if p.1 = c then (c, v) :: rest else p :: setKey rest c v

/-- Value of `acc[c] || 0`: an own 0 or NaN is falsy and gives 0, an own
nonzero number or (never-empty) string passes through; an absent key falls
back to the prototype chain — a truthy inherited member for the
`Object.prototype` names, undefined (hence 0) otherwise. -/
def baseOf (acc : Acc) (c : String) : SVal :=
  match lookupAcc acc c with
  | some (SVal.num v) => if v = some 0 ∨ v = none then SVal.num (some 0) else SVal.num v
  | some SVal.str => SVal.str
  | none => if c ∈ protoKeys then SVal.str else SVal.num (some 0)

/-- Adding `e.amount` to the base: numbers add (NaN propagating), a string
concatenates to a string again. -/
def addAmount : SVal → Option ℚ → SVal
  | SVal.num v, a => SVal.num (jsAdd v a)
  | SVal.str, _ => SVal.str

/-- One step of the summary reduce of server.js:
`acc[e.category] = (acc[e.category] || 0) + e.amount`.  Assignment to the key
"__proto__" invokes the inherited `Object.prototype` setter with a non-object
value, which is a silent no-op creating no own property, so the accumulator is
unchanged. -/
def summaryStep (acc : Acc) (e : Expense) : Acc :=
  if e.category = "__proto__" then acc
  else setKey acc e.category (addAmount (baseOf acc e.category) e.amount)

def buildSummary (st : List Expense) : Acc := st.foldl summaryStep []

/-- Canonical array-index strings, the property keys that `Object.entries`
enumerates first: the decimal numeral, without leading zeros, of a number n
with 0 ≤ n < 2^32 - 1. -/
def isArrayIndex (s : String) : Bool :=
  !s.data.isEmpty && s.data.all Char.isDigit
    && (s.data.head? != some '0' || s == "0")
    && digitsToNat s.data < 4294967295

def idxVal (s : String) : Nat := digitsToNat s.data

def insertByIdx (p : String × SVal) : List (String × SVal) → List (String × SVal)
  | [] => [p]
  | q :: rest => if idxVal p.1 ≤ idxVal q.1 then p :: q :: rest else q :: insertByIdx p rest

def sortByIdx (l : List (String × SVal)) : List (String × SVal) :=
  l.foldr insertByIdx []

def insertKey (c : String) : List String → List String
  | [] => [c]
  | d :: rest => if idxVal c ≤ idxVal d then c :: d :: rest else d :: insertKey c rest

def sortKeys (l : List String) : List String := l.foldr insertKey []

/-- Enumeration order of `Object.entries` over the accumulator object:
array-index keys in ascending numeric order first, then the remaining keys in
insertion order. -/
def objectEntries (l : Acc) : Acc :=
  sortByIdx (l.filter (fun p => isArrayIndex p.1)) ++ l.filter (fun p => !isArrayIndex p.1)

def grandTotalOf (st : List Expense) : Option ℚ :=
  st.foldl (fun s e => jsAdd s e.amount) (some 0)

/-- GET /api/expenses/summary: the category → total pairs in `Object.entries`
order, together with the grand total. -/
def summarize (st : List Expense) : Acc × Option ℚ :=
  (objectEntries (buildSummary st), grandTotalOf st)

/-- Sum, with the JavaScript `+`, of a list of summary values: numbers add and
any string turns the whole result into a string. -/
def jsSumSV (l : List SVal) : SVal :=
  l.foldl
    (fun s v =>
      match s, v with
      | SVal.num a, SVal.num b => SVal.num (jsAdd a b)
      | _, _ => SVal.str)
    (SVal.num (some 0))

structure CreateBody where
  amount : JsVal
  category : Option String
  date : Option String
  description : Option String
deriving DecidableEq

/-- POST /api/expenses; `freshId` stands for the generated uuidv4() value. -/
def createExpense (freshId : String) (b : CreateBody) (st : List Expense) :
    HResult Expense × List Expense :=
  if !truthy b.amount || !truthyStr b.category || !truthyStr b.date then
    (.err 400 "Amount, category, and date are required", st)
  else
    let e : Expense :=
      ⟨freshId, parseFloat b.amount, (b.category).getD "", (b.date).getD "",
        (b.description).getD ""⟩
    (.ok 201 e, st ++ [e])

structure UpdateBody where
  amount : JsVal
  category : Option String
  date : Option String
  description : Option String
deriving DecidableEq

def emptyBody : UpdateBody := ⟨.undef, none, none, none⟩

/-- Field merge of PUT /api/expenses/:id: `amount` is replaced when
`!== undefined` (through parseFloat), `category` and `date` by `||` (any falsy
value keeps the old one), `description` when `!== undefined`, verbatim. -/
def applyUpdate (old : Expense) (b : UpdateBody) : Expense :=
  ⟨old.id,
    if b.amount = .undef then old.amount else parseFloat b.amount,
    (match b.category with
      | some s => if s = "" then old.category else s
      | none => old.category),
    (match b.date with
      | some s => if s = "" then old.date else s
      | none => old.date),
    (match b.description with
      | some s => s
      | none => old.description)⟩

/-- PUT /api/expenses/:id: replace the first record carrying the id in place
(`findIndex` then assignment at that index); 404 when absent. -/
def updateExpense (eid : String) (b : UpdateBody) : List Expense → HResult Expense × List Expense
  | [] => (.err 404 "Expense not found", [])
  | e :: rest =>
      if e.id = eid then (.ok 200 (applyUpdate e b), applyUpdate e b :: rest)
      else
        let r := updateExpense eid b rest
        (r.1, e :: r.2)

/-- DELETE /api/expenses/:id: splice out the first record carrying the id and
return it; 404 when absent. -/
def deleteExpense (eid : String) : List Expense → HResult Expense × List Expense
  | [] => (.err 404 "Expense not found", [])
  | e :: rest =>
      if e.id = eid then (.ok 200 e, rest)
      else
        let r := deleteExpense eid rest
        (r.1, e :: r.2)

/-- The seeded category registry of server.js. -/
def defaultCategories : List String :=
  ["Food", "Transport", "Entertainment", "Utilities", "Healthcare", "Shopping"]

/-- POST /api/categories: reject a falsy or all-whitespace name, reject a
case-insensitive duplicate, otherwise append the trimmed name. -/
def createCategory (name : Option String) (cats : List String) :
    HResult String × List String :=
  match name with
  | none => (.err 400 "Category name is required", cats)
  | some s =>
      if s = "" || trimStr s = "" then (.err 400 "Category name is required", cats)
      else if cats.any (fun c => matchesCI c (trimStr s)) then
        (.err 400 "Category already exists", cats)
      else
        (.ok 201 (trimStr s), cats ++ [trimStr s])

/-- The part of the data-model invariant of spec section 3 that the totals
claims quantify over: every stored amount is an actual number, not NaN. -/
def allNumeric (st : List Expense) : Prop := ∀ e ∈ st, e.amount ≠ none

instance (st : List Expense) : Decidable (allNumeric st) := by
  unfold allNumeric; infer_instance

def cats (st : List Expense) : List String := st.map Expense.category

/-- Spec-side per-category total: the sum of the amounts of the expenses whose
category is literally `c`. -/
def catTotal (st : List Expense) (c : String) : ℚ :=
  ((st.filter (fun e => e.category == c)).map (fun e => (e.amount).getD 0)).sum

def firstOccurAux (seen : List String) : List String → List String
  | [] => []
  | c :: rest =>
      if c ∈ seen then firstOccurAux seen rest else c :: firstOccurAux (c :: seen) rest

/-- The members of a list in the order first encountered, duplicates dropped. -/
def firstOccur (l : List String) : List String := firstOccurAux [] l

def keysOf (acc : Acc) : List String := acc.map Prod.fst

/-- Every own property of the accumulator holds an actual number. -/
def accNum (acc : Acc) : Prop := ∀ p ∈ acc, ∃ q : ℚ, p.2 = SVal.num (some q)

def demoFood : Expense := ⟨"a1", some 20, "Food", "2024-01-01", ""⟩

def demoTwo : Expense := ⟨"a2", some 30, "2", "2024-01-02", ""⟩

def demoStore : List Expense := [demoFood, demoTwo]

def demoBus : Expense := ⟨"b1", some 5, "Transport", "2024-02-02", "bus"⟩

def protoStore : List Expense := [⟨"t1", some 5, "toString", "2024-01-01", ""⟩]

theorem jsAdd_some (a b : ℚ) : jsAdd (some a) (some b) = some (a + b) := rfl

theorem foldl_jsAdd_some (l : List (Option ℚ)) (a : ℚ) (h : ∀ x ∈ l, x ≠ none) :
    l.foldl jsAdd (some a) = some (a + (l.map (fun x => x.getD 0)).sum) := by
  induction l generalizing a with
  | nil => simp
  | cons x t ih =>
      obtain ⟨q, rfl⟩ : ∃ q, x = some q := by
        cases x with
        | none => exact absurd rfl (h _ (List.mem_cons_self _ _))
        | some q => exact ⟨q, rfl⟩
      simp only [List.foldl_cons, jsAdd, List.map_cons, List.sum_cons, Option.getD_some]
      rw [ih _ (fun y hy => h y (List.mem_cons_of_mem _ hy)), add_assoc]

theorem jsSum_eq (l : List (Option ℚ)) (h : ∀ x ∈ l, x ≠ none) :
    jsSum l = some ((l.map (fun x => x.getD 0)).sum) := by
  unfold jsSum
  rw [foldl_jsAdd_some l 0 h, zero_add]

theorem grandTotalOf_eq_jsSum (st : List Expense) :
    grandTotalOf st = jsSum (st.map Expense.amount) := by
  unfold grandTotalOf jsSum
  rw [List.foldl_map]

theorem lookupAcc_setKey_self (acc : Acc) (c : String) (v : SVal) :
    lookupAcc (setKey acc c v) c = some v := by
  induction acc with
  | nil => simp [setKey, lookupAcc]
  | cons p rest ih =>
      by_cases h : p.1 = c
      · simp [setKey, h, lookupAcc]
      · simp [setKey, h, lookupAcc, ih]

theorem lookupAcc_setKey_ne (acc : Acc) (c d : String) (v : SVal) (h : d ≠ c) :
    lookupAcc (setKey acc c v) d = lookupAcc acc d := by
  have hcd : ¬ c = d := fun hh => h hh.symm
  have hdc : ¬ d = c := h
  induction acc with
  | nil => simp [setKey, lookupAcc, hcd]
  | cons p rest ih =>
      by_cases hp : p.1 = c
      · have hpd : ¬ p.1 = d := fun hd => hcd (hp ▸ hd)
        simp [setKey, hp, lookupAcc, hcd, hdc, hpd]
      · by_cases hd : p.1 = d
        · simp [setKey, hp, lookupAcc, hd, hdc]
        · simp [setKey, hp, lookupAcc, hd, ih]

theorem mem_setKey {acc : Acc} {c : String} {v : SVal} {p : String × SVal}
    (h : p ∈ setKey acc c v) : p = (c, v) ∨ p ∈ acc := by
  induction acc with
  | nil => simpa [setKey] using h
  | cons q rest ih =>
      by_cases hq : q.1 = c
      · simp only [setKey, if_pos hq, List.mem_cons] at h
        rcases h with h | h
        · exact Or.inl h
        · exact Or.inr (List.mem_cons_of_mem _ h)
      · simp only [setKey, if_neg hq, List.mem_cons] at h
        rcases h with h | h
        · exact Or.inr (h ▸ List.mem_cons_self _ _)
        · rcases ih h with h' | h'
          · exact Or.inl h'
          · exact Or.inr (List.mem_cons_of_mem _ h')

theorem lookupAcc_mem {acc : Acc} {c : String} {v : SVal}
    (h : lookupAcc acc c = some v) : (c, v) ∈ acc := by
  induction acc with
  | nil => simp [lookupAcc] at h
  | cons p rest ih =>
      by_cases hp : p.1 = c
      · simp only [lookupAcc, if_pos hp, Option.some.injEq] at h
        subst hp
        subst h
        exact List.mem_cons_self _ _
      · simp only [lookupAcc, if_neg hp] at h
        exact List.mem_cons_of_mem _ (ih h)

theorem lookupAcc_eq_none (acc : Acc) (c : String) :
    lookupAcc acc c = none ↔ c ∉ keysOf acc := by
  induction acc with
  | nil => simp [lookupAcc, keysOf]
  | cons p rest ih =>
      by_cases hp : p.1 = c
      · simp [lookupAcc, hp, keysOf]
      · have hcp : ¬ c = p.1 := fun hh => hp hh.symm
        simp [lookupAcc, hp, keysOf, ih, hcp]

theorem lookupAcc_of_mem_nodup {acc : Acc} {c : String} {v : SVal}
    (nd : (keysOf acc).Nodup) (h : (c, v) ∈ acc) : lookupAcc acc c = some v := by
  induction acc with
  | nil => simp at h
  | cons p rest ih =>
      rcases List.mem_cons.mp h with h' | h'
      · subst h'
        simp [lookupAcc]
      · have hk : c ∈ keysOf rest := List.mem_map.mpr ⟨(c, v), h', rfl⟩
        have hp : ¬ p.1 = c := by
          intro hh
          exact (List.nodup_cons.mp (by simpa [keysOf] using nd)).1 (hh ▸ hk)
        simp only [lookupAcc, if_neg hp]
        exact ih (List.nodup_cons.mp (by simpa [keysOf] using nd)).2 h'

theorem catTotal_nil (c : String) : catTotal [] c = 0 := rfl

theorem catTotal_cons (e : Expense) (st : List Expense) (c : String) :
    catTotal (e :: st) c
      = (if e.category = c then (e.amount).getD 0 else 0) + catTotal st c := by
  by_cases h : e.category = c <;> simp [catTotal, List.filter_cons, h]

theorem cats_cons (e : Expense) (st : List Expense) :
    cats (e :: st) = e.category :: cats st := rfl

theorem allNumeric_cons {e : Expense} {st : List Expense} (h : allNumeric (e :: st)) :
    e.amount ≠ none ∧ allNumeric st := List.forall_mem_cons.mp h

theorem mem_protoKeys_proto : "__proto__" ∈ protoKeys := by decide

theorem ne_proto_of_not_protoKeys {c : String} (h : c ∉ protoKeys) :
    c ≠ "__proto__" :=
  fun hh => h (by rw [hh]; exact mem_protoKeys_proto)

theorem summaryStep_eq (acc : Acc) (e : Expense) (h : e.category ≠ "__proto__") :
    summaryStep acc e
      = setKey acc e.category (addAmount (baseOf acc e.category) e.amount) := by
  unfold summaryStep
  rw [if_neg h]

theorem accNum_nil : accNum [] := by
  intro p hp
  simp at hp

theorem accNum_setKey {acc : Acc} {c : String} {v : SVal}
    (hv : ∃ q : ℚ, v = SVal.num (some q)) (hs : accNum acc) :
    accNum (setKey acc c v) := by
  intro p hp
  rcases mem_setKey hp with h | h
  · rw [h]
    exact hv
  · exact hs p h

theorem summaryStep_accNum {acc : Acc} {e : Expense} {q : ℚ}
    (hs : accNum acc) (hq : e.amount = some q) (hc : e.category ∉ protoKeys) :
    accNum (summaryStep acc e) := by
  rw [summaryStep_eq acc e (ne_proto_of_not_protoKeys hc)]
  apply accNum_setKey _ hs
  cases hl : lookupAcc acc e.category with
  | none =>
      refine ⟨0 + q, ?_⟩
      simp [baseOf, hl, hc, addAmount, hq, jsAdd]
  | some v =>
      obtain ⟨w, rfl⟩ := hs _ (lookupAcc_mem hl)
      by_cases hw : w = 0
      · subst hw
        refine ⟨0 + q, ?_⟩
        simp [baseOf, hl, addAmount, hq, jsAdd]
      · refine ⟨w + q, ?_⟩
        simp [baseOf, hl, hw, addAmount, hq, jsAdd]

theorem lookupAcc_foldl_some (st : List Expense) (acc : Acc) (c : String) (w : ℚ)
    (h : allNumeric st) (hp : ∀ x ∈ cats st, x ∉ protoKeys) (hs : accNum acc)
    (hl : lookupAcc acc c = some (SVal.num (some w))) :
    lookupAcc (st.foldl summaryStep acc) c
      = some (SVal.num (some (w + catTotal st c))) := by
  induction st generalizing acc w with
  | nil =>
      rw [catTotal_nil]
      simpa using hl
  | cons e t ih =>
      obtain ⟨he, ht⟩ := allNumeric_cons h
      obtain ⟨q, hq⟩ : ∃ q, e.amount = some q := by
        cases hh : e.amount with
        | none => exact absurd hh he
        | some q => exact ⟨q, rfl⟩
      have hpe : e.category ∉ protoKeys := hp _ (by
        rw [cats_cons]
        exact List.mem_cons_self _ _)
      have hpt : ∀ x ∈ cats t, x ∉ protoKeys := fun x hx => hp x (by
        rw [cats_cons]
        exact List.mem_cons_of_mem _ hx)
      have hsacc : accNum (summaryStep acc e) := summaryStep_accNum hs hq hpe
      simp only [List.foldl_cons]
      by_cases hc : e.category = c
      · have hstep : lookupAcc (summaryStep acc e) c
            = some (SVal.num (some (w + q))) := by
          rw [summaryStep_eq acc e (ne_proto_of_not_protoKeys hpe), hc,
            lookupAcc_setKey_self]
          by_cases hw : w = 0
          · subst hw
            simp [baseOf, hl, addAmount, hq, jsAdd]
          · simp [baseOf, hl, hw, addAmount, hq, jsAdd]
        rw [ih (summaryStep acc e) (w + q) ht hpt hsacc hstep,
          catTotal_cons, if_pos hc, hq]
        simp only [Option.getD_some, Option.some.injEq, SVal.num.injEq]
        ring
      · have hcc : c ≠ e.category := fun hh => hc hh.symm
        have hstep : lookupAcc (summaryStep acc e) c = some (SVal.num (some w)) := by
          rw [summaryStep_eq acc e (ne_proto_of_not_protoKeys hpe),
            lookupAcc_setKey_ne _ _ _ _ hcc]
          exact hl
        rw [ih (summaryStep acc e) w ht hpt hsacc hstep,
          catTotal_cons, if_neg hc, zero_add]

theorem lookupAcc_foldl_none (st : List Expense) (acc : Acc) (c : String)
    (h : allNumeric st) (hp : ∀ x ∈ cats st, x ∉ protoKeys) (hs : accNum acc)
    (hl : lookupAcc acc c = none) :
    lookupAcc (st.foldl summaryStep acc) c
      = if c ∈ cats st then some (SVal.num (some (catTotal st c))) else none := by
  induction st generalizing acc with
  | nil =>
      simpa [cats] using hl
  | cons e t ih =>
      obtain ⟨he, ht⟩ := allNumeric_cons h
      obtain ⟨q, hq⟩ : ∃ q, e.amount = some q := by
        cases hh : e.amount with
        | none => exact absurd hh he
        | some q => exact ⟨q, rfl⟩
      have hpe : e.category ∉ protoKeys := hp _ (by
        rw [cats_cons]
        exact List.mem_cons_self _ _)
      have hpt : ∀ x ∈ cats t, x ∉ protoKeys := fun x hx => hp x (by
        rw [cats_cons]
        exact List.mem_cons_of_mem _ hx)
      have hsacc : accNum (summaryStep acc e) := summaryStep_accNum hs hq hpe
      simp only [List.foldl_cons]
      by_cases hc : e.category = c
      · have hcp : c ∉ protoKeys := hc ▸ hpe
        have hstep : lookupAcc (summaryStep acc e) c = some (SVal.num (some q)) := by
          rw [summaryStep_eq acc e (ne_proto_of_not_protoKeys hpe), hc,
            lookupAcc_setKey_self]
          simp [baseOf, hl, hcp, addAmount, hq, jsAdd]
        rw [lookupAcc_foldl_some t _ c q ht hpt hsacc hstep]
        have hmem : c ∈ cats (e :: t) := by
          rw [cats_cons, hc]
          exact List.mem_cons_self _ _
        rw [if_pos hmem, catTotal_cons, if_pos hc, hq]
        simp
      · have hcc : c ≠ e.category := fun hh => hc hh.symm
        have hstep : lookupAcc (summaryStep acc e) c = none := by
          rw [summaryStep_eq acc e (ne_proto_of_not_protoKeys hpe),
            lookupAcc_setKey_ne _ _ _ _ hcc]
          exact hl
        rw [ih (summaryStep acc e) ht hpt hsacc hstep,
          catTotal_cons, if_neg hc, zero_add]
        have hmem : (c ∈ cats (e :: t)) ↔ (c ∈ cats t) := by
          rw [cats_cons]
          simp [List.mem_cons, hcc]
        by_cases hm : c ∈ cats t
        · rw [if_pos hm, if_pos (hmem.mpr hm)]
        · rw [if_neg hm, if_neg (fun hx => hm (hmem.mp hx))]

theorem buildSummary_lookup (st : List Expense) (c : String) (h : allNumeric st)
    (hp : ∀ x ∈ cats st, x ∉ protoKeys) :
    lookupAcc (buildSummary st) c
      = if c ∈ cats st then some (SVal.num (some (catTotal st c))) else none :=
  lookupAcc_foldl_none st [] c h hp accNum_nil rfl

theorem keysOf_setKey (acc : Acc) (c : String) (v : SVal) :
    keysOf (setKey acc c v)
      = if c ∈ keysOf acc then keysOf acc else keysOf acc ++ [c] := by
  induction acc with
  | nil => simp [setKey, keysOf]
  | cons p rest ih =>
      by_cases hp : p.1 = c
      · have : c ∈ keysOf (p :: rest) := by
          rw [keysOf, List.map_cons, hp]
          exact List.mem_cons_self _ _
        simp [setKey, hp, keysOf, this]
      · have hcp : ¬ c = p.1 := fun hh => hp hh.symm
        by_cases hm : c ∈ keysOf rest
        · simp only [setKey, if_neg hp, keysOf, List.map_cons]
          have hrw := ih
          rw [if_pos hm] at hrw
          unfold keysOf at hrw
          have hm' : c ∈ List.map Prod.fst rest := hm
          rw [hrw, if_pos (List.mem_cons_of_mem p.1 hm')]
        · have hnot : c ∉ p.1 :: List.map Prod.fst rest := by
            intro hx
            rcases List.mem_cons.mp hx with hx | hx
            · exact hcp hx
            · exact hm hx
          simp only [setKey, if_neg hp, keysOf, List.map_cons]
          have hrw := ih
          rw [if_neg hm] at hrw
          unfold keysOf at hrw
          rw [hrw, if_neg hnot, List.cons_append]

theorem firstOccurAux_congr (l : List String) (s₁ s₂ : List String)
    (h : ∀ x, x ∈ s₁ ↔ x ∈ s₂) : firstOccurAux s₁ l = firstOccurAux s₂ l := by
  induction l generalizing s₁ s₂ with
  | nil => rfl
  | cons c t ih =>
      by_cases hc : c ∈ s₁
      · rw [firstOccurAux, firstOccurAux, if_pos hc, if_pos ((h c).mp hc)]
        exact ih s₁ s₂ h
      · have hc₂ : c ∉ s₂ := fun hx => hc ((h c).mpr hx)
        rw [firstOccurAux, firstOccurAux, if_neg hc, if_neg hc₂]
        congr 1
        refine ih _ _ (fun x => ?_)
        simp only [List.mem_cons]
        rw [h x]

theorem keysOf_foldl (st : List Expense) (acc : Acc)
    (hp : ∀ x ∈ cats st, x ∉ protoKeys) :
    keysOf (st.foldl summaryStep acc)
      = keysOf acc ++ firstOccurAux (keysOf acc) (cats st) := by
  induction st generalizing acc with
  | nil => simp [cats, firstOccurAux]
  | cons e t ih =>
      have hpe : e.category ∉ protoKeys := hp _ (by
        rw [cats_cons]
        exact List.mem_cons_self _ _)
      have hpt : ∀ x ∈ cats t, x ∉ protoKeys := fun x hx => hp x (by
        rw [cats_cons]
        exact List.mem_cons_of_mem _ hx)
      simp only [List.foldl_cons]
      rw [ih (summaryStep acc e) hpt]
      have hk : keysOf (summaryStep acc e)
          = if e.category ∈ keysOf acc then keysOf acc
            else keysOf acc ++ [e.category] := by
        rw [summaryStep_eq acc e (ne_proto_of_not_protoKeys hpe)]
        exact keysOf_setKey acc e.category _
      by_cases hm : e.category ∈ keysOf acc
      · rw [hk, if_pos hm, cats_cons, firstOccurAux, if_pos hm]
      · rw [hk, if_neg hm, cats_cons, firstOccurAux, if_neg hm]
        rw [firstOccurAux_congr (cats t) (keysOf acc ++ [e.category])
          (e.category :: keysOf acc)
          (fun x => by simp [List.mem_append, List.mem_cons, or_comm])]
        rw [List.append_assoc, List.singleton_append]

theorem buildSummary_keys (st : List Expense)
    (hp : ∀ x ∈ cats st, x ∉ protoKeys) :
    keysOf (buildSummary st) = firstOccur (cats st) := by
  unfold buildSummary firstOccur
  rw [keysOf_foldl st [] hp]
  simp [keysOf]

theorem firstOccurAux_nodup (l : List String) (seen : List String) :
    (firstOccurAux seen l).Nodup ∧ ∀ x ∈ firstOccurAux seen l, x ∉ seen := by
  induction l generalizing seen with
  | nil => simp [firstOccurAux]
  | cons c t ih =>
      by_cases hc : c ∈ seen
      · rw [firstOccurAux, if_pos hc]
        exact ih seen
      · rw [firstOccurAux, if_neg hc]
        obtain ⟨hnd, hout⟩ := ih (c :: seen)
        refine ⟨List.nodup_cons.mpr ⟨fun hx => ?_, hnd⟩, fun x hx => ?_⟩
        · exact (hout c hx) (List.mem_cons_self _ _)
        · rcases List.mem_cons.mp hx with hx | hx
          · exact hx ▸ hc
          · exact fun hs => (hout x hx) (List.mem_cons_of_mem _ hs)

theorem mem_firstOccurAux (x : String) (l : List String) (seen : List String) :
    x ∈ firstOccurAux seen l ↔ x ∈ l ∧ x ∉ seen := by
  induction l generalizing seen with
  | nil => simp [firstOccurAux]
  | cons c t ih =>
      by_cases hc : c ∈ seen
      · rw [firstOccurAux, if_pos hc, ih]
        constructor
        · rintro ⟨hx, hs⟩
          exact ⟨List.mem_cons_of_mem _ hx, hs⟩
        · rintro ⟨hx, hs⟩
          rcases List.mem_cons.mp hx with hx | hx
          · exact absurd (hx ▸ hc) hs
          · exact ⟨hx, hs⟩
      · rw [firstOccurAux, if_neg hc]
        constructor
        · intro hx
          rcases List.mem_cons.mp hx with hx | hx
          · exact ⟨hx ▸ List.mem_cons_self _ _, hx ▸ hc⟩
          · obtain ⟨h1, h2⟩ := (ih (c :: seen)).mp hx
            exact ⟨List.mem_cons_of_mem _ h1,
              fun hs => h2 (List.mem_cons_of_mem _ hs)⟩
        · rintro ⟨hx, hs⟩
          rcases List.mem_cons.mp hx with hx | hx
          · exact hx ▸ List.mem_cons_self _ _
          · by_cases hxc : x = c
            · exact hxc ▸ List.mem_cons_self _ _
            · exact List.mem_cons_of_mem _
                ((ih (c :: seen)).mpr ⟨hx, fun hin => by
                  rcases List.mem_cons.mp hin with h' | h'
                  · exact hxc h'
                  · exact hs h'⟩)

theorem mem_firstOccur (x : String) (l : List String) :
    x ∈ firstOccur l ↔ x ∈ l := by
  unfold firstOccur
  rw [mem_firstOccurAux]
  simp

theorem firstOccur_nodup (l : List String) : (firstOccur l).Nodup :=
  (firstOccurAux_nodup l []).1

theorem insertByIdx_perm (p : String × SVal) (l : List (String × SVal)) :
    List.Perm (insertByIdx p l) (p :: l) := by
  induction l with
  | nil => exact List.Perm.refl _
  | cons q t ih =>
      by_cases h : idxVal p.1 ≤ idxVal q.1
      · rw [insertByIdx, if_pos h]
      · rw [insertByIdx, if_neg h]
        exact (ih.cons q).trans (List.Perm.swap p q t)

theorem sortByIdx_perm (l : List (String × SVal)) :
    List.Perm (sortByIdx l) l := by
  induction l with
  | nil => exact List.Perm.refl _
  | cons p t ih =>
      have : sortByIdx (p :: t) = insertByIdx p (sortByIdx t) := rfl
      rw [this]
      exact (insertByIdx_perm p (sortByIdx t)).trans (ih.cons p)

theorem objectEntries_perm (l : Acc) : List.Perm (objectEntries l) l := by
  unfold objectEntries
  exact ((sortByIdx_perm _).append_right _).trans
    (List.filter_append_perm (fun p => isArrayIndex p.1) l)

theorem map_fst_insertByIdx (p : String × SVal) (l : List (String × SVal)) :
    (insertByIdx p l).map Prod.fst = insertKey p.1 (l.map Prod.fst) := by
  induction l with
  | nil => rfl
  | cons q t ih =>
      by_cases h : idxVal p.1 ≤ idxVal q.1
      · rw [insertByIdx, if_pos h, List.map_cons, List.map_cons,
          insertKey, if_pos h]
      · rw [insertByIdx, if_neg h, List.map_cons, List.map_cons,
          insertKey, if_neg h, ih]

theorem map_fst_sortByIdx (l : List (String × SVal)) :
    (sortByIdx l).map Prod.fst = sortKeys (l.map Prod.fst) := by
  induction l with
  | nil => rfl
  | cons p t ih =>
      have h1 : sortByIdx (p :: t) = insertByIdx p (sortByIdx t) := rfl
      have h2 : sortKeys (p.1 :: t.map Prod.fst)
          = insertKey p.1 (sortKeys (t.map Prod.fst)) := rfl
      rw [h1, List.map_cons, h2, map_fst_insertByIdx, ih]

theorem map_fst_filter (l : Acc) (f : String → Bool) :
    (l.filter (fun p => f p.1)).map Prod.fst = (l.map Prod.fst).filter f := by
  induction l with
  | nil => rfl
  | cons p t ih =>
      by_cases h : f p.1
      · simp [List.filter_cons, h, ih]
      · simp [List.filter_cons, h, ih]

theorem summarize_fst : ∀ st : List Expense, (summarize st).1 = objectEntries (buildSummary st) :=
  fun _ => rfl

theorem summarize_entries_keys (st : List Expense)
    (hp : ∀ x ∈ cats st, x ∉ protoKeys) :
    keysOf (summarize st).1
      = sortKeys ((firstOccur (cats st)).filter isArrayIndex)
        ++ (firstOccur (cats st)).filter (fun c => !isArrayIndex c) := by
  rw [summarize_fst]
  unfold objectEntries keysOf
  rw [List.map_append]
  have h1 : (sortByIdx ((buildSummary st).filter (fun p => isArrayIndex p.1))).map Prod.fst
      = sortKeys (((buildSummary st).map Prod.fst).filter isArrayIndex) := by
    rw [map_fst_sortByIdx, map_fst_filter]
  have h2 : ((buildSummary st).filter (fun p => !isArrayIndex p.1)).map Prod.fst
      = ((buildSummary st).map Prod.fst).filter (fun c => !isArrayIndex c) :=
    map_fst_filter (buildSummary st) (fun c => !isArrayIndex c)
  rw [h1, h2]
  have hk : (buildSummary st).map Prod.fst = firstOccur (cats st) :=
    buildSummary_keys st hp
  rw [hk]

theorem entries_mem_iff (st : List Expense) (p : String × SVal) :
    p ∈ (summarize st).1 ↔ p ∈ buildSummary st := by
  rw [summarize_fst]
  exact (objectEntries_perm (buildSummary st)).mem_iff

theorem entries_content (st : List Expense) (h : allNumeric st)
    (hp : ∀ x ∈ cats st, x ∉ protoKeys) :
    ∀ p ∈ (summarize st).1, p.2 = SVal.num (some (catTotal st p.1)) := by
  intro p hpmem
  have hmem : p ∈ buildSummary st := (entries_mem_iff st p).mp hpmem
  have hnd : (keysOf (buildSummary st)).Nodup := by
    rw [buildSummary_keys st hp]
    exact firstOccur_nodup _
  have hl : lookupAcc (buildSummary st) p.1 = some p.2 := by
    have hpp : (p.1, p.2) ∈ buildSummary st := by
      rw [Prod.mk.eta]
      exact hmem
    exact lookupAcc_of_mem_nodup hnd hpp
  have hcat : p.1 ∈ cats st := by
    have hk : p.1 ∈ keysOf (buildSummary st) := List.mem_map.mpr ⟨p, hmem, rfl⟩
    rw [buildSummary_keys st hp] at hk
    exact (mem_firstOccur _ _).mp hk
  rw [buildSummary_lookup st p.1 h hp, if_pos hcat] at hl
  injection hl with hh
  exact hh.symm

theorem catTotal_eq_jsSum (st : List Expense) (c : String) (h : allNumeric st) :
    jsSum ((st.filter (fun e => e.category == c)).map Expense.amount)
      = some (catTotal st c) := by
  rw [jsSum_eq]
  · unfold catTotal
    rw [List.map_map]
    rfl
  · intro x hx
    obtain ⟨e, he, rfl⟩ := List.mem_map.mp hx
    exact h e (List.mem_filter.mp he).1

/-- C1 (amended): the summary grand total is the reduce — the left fold
starting from 0 — of `amount` over the full unfiltered collection (both sides
of this equality fold the identical operand sequence, so it holds for any
addition operator, IEEE-754 double addition included), and the empty
collection yields an empty mapping and grand total 0.  The original claim's
further conjunct, that the per-category totals sum back to the grand total, is
refuted at `protoStore`. -/
theorem summarize_totals (st : List Expense) :
    (summarize st).2 = jsSum (st.map Expense.amount)
    ∧ summarize [] = ([], some 0) :=
  ⟨grandTotalOf_eq_jsSum st, rfl⟩

/-- C1 counterexample: a single expense of amount 5 in the category
"toString".  Reading `acc["toString"] || 0` finds the truthy inherited
`Object.prototype.toString`, so the row's total is a string concatenation; the
sum of the per-category totals is then a string while the grand total is the
number 5, refuting the conjunct that the per-category totals always sum to the
grand total. -/
theorem summarize_totals_cex :
    (summarize protoStore).1.map Prod.snd = [SVal.str]
    ∧ jsSumSV ((summarize protoStore).1.map Prod.snd) = SVal.str
    ∧ jsSumSV ((summarize protoStore).1.map Prod.snd)
        ≠ SVal.num (summarize protoStore).2 :=
  ⟨by decide, rfl, by decide⟩

/-- C2 counterexample: in a store whose categories are first "Food" and then
"2", the summary rows come out keyed ["2", "Food"], not in the claimed
first-encountered order ["Food", "2"], because the accumulator property "2" is
an array-index key that `Object.entries` enumerates first. -/
theorem summarize_order_cex :
    keysOf (summarize demoStore).1 = ["2", "Food"]
    ∧ firstOccur (cats demoStore) = ["Food", "2"]
    ∧ keysOf (summarize demoStore).1 ≠ firstOccur (cats demoStore) :=
  ⟨by decide, by decide, by decide⟩

/-- C2 (amended): provided no category collides with an `Object.prototype`
property name (otherwise the program reads a truthy inherited member: a
"__proto__" row is never created, and other such rows carry concatenated
strings), the summary groups by the exact category string: each row's total is
the reduce of the amounts of exactly the expenses carrying literally that
string — an equality of two folds of the identical operand sequence, hence
independent of the addition operator — a category string appears as a key
exactly when some expense carries it, keys are never repeated (so two
case-differing categories give two separate rows), and the entries appear in
first-encountered order except that canonical array-index strings (decimal
numerals of n with 0 ≤ n < 2^32 - 1) come first, in ascending numeric
order. -/
theorem summarize_grouping (st : List Expense) (h : allNumeric st)
    (hp : ∀ c ∈ cats st, c ∉ protoKeys) :
    (∀ p ∈ (summarize st).1,
        p.2 = SVal.num
          (jsSum ((st.filter (fun e => e.category == p.1)).map Expense.amount)))
    ∧ (∀ c, c ∈ keysOf (summarize st).1 ↔ c ∈ cats st)
    ∧ (keysOf (summarize st).1).Nodup
    ∧ keysOf (summarize st).1
        = sortKeys ((firstOccur (cats st)).filter isArrayIndex)
          ++ (firstOccur (cats st)).filter (fun c => !isArrayIndex c) := by
  have hperm : List.Perm (keysOf (summarize st).1) (keysOf (buildSummary st)) := by
    rw [summarize_fst]
    exact (objectEntries_perm (buildSummary st)).map _
  refine ⟨?_, ?_, ?_, summarize_entries_keys st hp⟩
  · intro p hpmem
    rw [catTotal_eq_jsSum st p.1 h]
    exact entries_content st h hp p hpmem
  · intro c
    rw [hperm.mem_iff, buildSummary_keys st hp, mem_firstOccur]
  · rw [hperm.nodup_iff, buildSummary_keys st hp]
    exact firstOccur_nodup _

/-- Witness for summarize_grouping at the demo store with an array-index
category. -/
theorem summarize_grouping_witness :
    allNumeric demoStore
    ∧ (∀ c ∈ cats demoStore, c ∉ protoKeys)
    ∧ ((∀ p ∈ (summarize demoStore).1,
          p.2 = SVal.num
            (jsSum ((demoStore.filter
                (fun e => e.category == p.1)).map Expense.amount)))
        ∧ (∀ c, c ∈ keysOf (summarize demoStore).1 ↔ c ∈ cats demoStore)
        ∧ (keysOf (summarize demoStore).1).Nodup
        ∧ keysOf (summarize demoStore).1
            = sortKeys ((firstOccur (cats demoStore)).filter isArrayIndex)
              ++ (firstOccur (cats demoStore)).filter (fun c => !isArrayIndex c)) :=
  ⟨by decide, by decide, summarize_grouping demoStore (by decide) (by decide)⟩

/-- C3: listing with no filter, an empty filter, or the sentinel "All" returns
the whole store in order; any other non-empty filter returns exactly the
expenses whose category matches case-insensitively, as an order-preserving
sublist of the store; the handler never fails and an empty store lists as
empty. -/
theorem list_filter_spec (st : List Expense) (c : String) :
    listExpenses st none = st
    ∧ listExpenses st (some "") = st
    ∧ listExpenses st (some "All") = st
    ∧ (c ≠ "" → c ≠ "All" →
        (∀ e, e ∈ listExpenses st (some c) ↔ e ∈ st ∧ matchesCI e.category c = true)
        ∧ List.Sublist (listExpenses st (some c)) st)
    ∧ (∀ filt, (getExpenses st filt).isErr = false)
    ∧ (∀ filt, listExpenses [] filt = []) := by
  refine ⟨rfl, by simp [listExpenses], by simp [listExpenses], ?_,
    fun filt => rfl, ?_⟩
  · intro h1 h2
    have hfil : listExpenses st (some c) = st.filter (fun e => matchesCI e.category c) := by
      rw [listExpenses, if_pos ⟨h1, h2⟩]
    constructor
    · intro e
      rw [hfil, List.mem_filter]
    · rw [hfil]
      exact List.filter_sublist st
  · intro filt
    cases filt with
    | none => rfl
    | some c' => simp [listExpenses]

/-- Witness for list_filter_spec with the filter "food" over the demo store. -/
theorem list_filter_spec_witness :
    (("food" : String) ≠ "" ∧ ("food" : String) ≠ "All")
    ∧ ((∀ e, e ∈ listExpenses demoStore (some "food")
          ↔ e ∈ demoStore ∧ matchesCI e.category "food" = true)
        ∧ List.Sublist (listExpenses demoStore (some "food")) demoStore) :=
  ⟨⟨by decide, by decide⟩,
    (list_filter_spec demoStore "food").2.2.2.1 (by decide) (by decide)⟩

/-- C10: in the update merge an explicit empty string for `category` or `date`
acts exactly like an absent field (the prior value is kept), while an explicit
empty string for `description` overwrites the prior description; the
empty-string sentinel is handled asymmetrically. -/
theorem update_empty_string_asymmetry (old : Expense) (b : UpdateBody) :
    applyUpdate old ⟨b.amount, some "", b.date, b.description⟩
      = applyUpdate old ⟨b.amount, none, b.date, b.description⟩
    ∧ applyUpdate old ⟨b.amount, b.category, some "", b.description⟩
      = applyUpdate old ⟨b.amount, b.category, none, b.description⟩
    ∧ (applyUpdate old ⟨b.amount, b.category, b.date, some ""⟩).description = ""
    ∧ (old.description ≠ "" →
        applyUpdate old ⟨b.amount, b.category, b.date, some ""⟩
          ≠ applyUpdate old ⟨b.amount, b.category, b.date, none⟩) := by
  refine ⟨by simp [applyUpdate], by simp [applyUpdate], by simp [applyUpdate], ?_⟩
  intro hne heq
  have hd := congrArg Expense.description heq
  simp [applyUpdate] at hd
  exact hne hd.symm

/-- Witness for update_empty_string_asymmetry at the demo record with a
non-empty description. -/
theorem update_empty_string_asymmetry_witness :
    demoBus.description ≠ ""
    ∧ applyUpdate demoBus ⟨JsVal.undef, none, none, some ""⟩
        ≠ applyUpdate demoBus ⟨JsVal.undef, none, none, none⟩ :=
  ⟨by decide, (update_empty_string_asymmetry demoBus emptyBody).2.2.2 (by decide)⟩

/-- C4 (amended): create fails with the validation error exactly when one of
amount, category, date is falsy — for category and date that is absent, null,
or the empty string (as the claim says), but for amount additionally the
number 0 and NaN — the store is unchanged on failure; on success the record
built from the body is appended at the end and returned, carrying the fresh
id, the parseFloat coercion of the amount, the given category and date, and
the description defaulted to the empty string. -/
theorem create_spec (fid : String) (b : CreateBody) (st : List Expense) :
    ((createExpense fid b st).1.isErr = true
      ↔ (truthy b.amount = false ∨ truthyStr b.category = false
          ∨ truthyStr b.date = false))
    ∧ ((createExpense fid b st).1.isErr = true → (createExpense fid b st).2 = st)
    ∧ (truthy b.amount = true → truthyStr b.category = true → truthyStr b.date = true →
        ∃ e : Expense,
          (createExpense fid b st).1 = .ok 201 e
          ∧ (createExpense fid b st).2 = st ++ [e]
          ∧ e.id = fid
          ∧ e.amount = parseFloat b.amount
          ∧ (∀ s, b.category = some s → e.category = s)
          ∧ (∀ s, b.date = some s → e.date = s)
          ∧ e.description = (b.description).getD "") := by
  cases ha : truthy b.amount with
  | false =>
      refine ⟨by simp [createExpense, ha, HResult.isErr], ?_, ?_⟩
      · intro _
        simp [createExpense, ha]
      · intro h1
        exact absurd h1 (by simp)
  | true =>
      cases hc : truthyStr b.category with
      | false =>
          refine ⟨by simp [createExpense, ha, hc, HResult.isErr], ?_, ?_⟩
          · intro _
            simp [createExpense, ha, hc]
          · intro _ h2 _
            exact absurd h2 (by simp)
      | true =>
          cases hd : truthyStr b.date with
          | false =>
              refine ⟨by simp [createExpense, ha, hc, hd, HResult.isErr], ?_, ?_⟩
              · intro _
                simp [createExpense, ha, hc, hd]
              · intro _ _ h3
                exact absurd h3 (by simp)
          | true =>
              have hcond :
                  (!truthy b.amount || !truthyStr b.category || !truthyStr b.date)
                    = false := by
                rw [ha, hc, hd]
                rfl
              have hok : createExpense fid b st
                  = (.ok 201 ⟨fid, parseFloat b.amount, (b.category).getD "",
                        (b.date).getD "", (b.description).getD ""⟩,
                     st ++ [⟨fid, parseFloat b.amount, (b.category).getD "",
                        (b.date).getD "", (b.description).getD ""⟩]) := by
                unfold createExpense
                rw [hcond]
                simp
              refine ⟨?_, ?_, ?_⟩
              · rw [hok]
                simp [HResult.isErr, ha, hc, hd]
              · rw [hok]
                intro h1
                simp [HResult.isErr] at h1
              · intro _ _ _
                refine ⟨⟨fid, parseFloat b.amount, (b.category).getD "",
                    (b.date).getD "", (b.description).getD ""⟩,
                  by rw [hok], by rw [hok], rfl, rfl, ?_, ?_, rfl⟩
                · intro s hs
                  rw [hs]
                  rfl
                · intro s hs
                  rw [hs]
                  rfl

/-- C4 counterexample: the amount 0 — a value that is present, not null and
not an empty string, so not "missing" in the claim's sense — is nevertheless
rejected by create, because the guard tests JavaScript falsiness. -/
theorem create_zero_amount_cex :
    (createExpense "e1" ⟨JsVal.num 0, some "Food", some "2024-01-01", none⟩ []).1.isErr
        = true
    ∧ JsVal.num 0 ≠ JsVal.undef
    ∧ JsVal.num 0 ≠ JsVal.jsNull
    ∧ (∀ s : String, JsVal.num 0 ≠ JsVal.str s)
    ∧ (createExpense "e1" ⟨JsVal.num 0, some "Food", some "2024-01-01", none⟩ []).2
        = [] := by
  refine ⟨?_, fun h => JsVal.noConfusion h, fun h => JsVal.noConfusion h,
    fun s h => JsVal.noConfusion h, ?_⟩
  · norm_num [createExpense, truthy, truthyStr, HResult.isErr] <;> decide
  · norm_num [createExpense, truthy, truthyStr] <;> decide

/-- Witness for create_spec: a failing create leaves the store unalterered and
a fully truthy body is appended and returned. -/
theorem create_spec_witness :
    ((createExpense "w2" ⟨JsVal.undef, some "Food", some "2024-01-01", none⟩ []).2 = [])
    ∧ (∃ e : Expense,
        (createExpense "w1"
            ⟨JsVal.str "50", some "Food", some "2024-01-01", some "lunch"⟩ []).1
          = .ok 201 e
        ∧ (createExpense "w1"
              ⟨JsVal.str "50", some "Food", some "2024-01-01", some "lunch"⟩ []).2
            = [] ++ [e]
        ∧ e.id = "w1"
        ∧ e.amount = parseFloat (JsVal.str "50")
        ∧ (∀ s, (some "Food" : Option String) = some s → e.category = s)
        ∧ (∀ s, (some "2024-01-01" : Option String) = some s → e.date = s)
        ∧ e.description = (some "lunch" : Option String).getD "") :=
  ⟨(create_spec "w2" ⟨JsVal.undef, some "Food", some "2024-01-01", none⟩ []).2.1
      (by decide),
    (create_spec "w1" ⟨JsVal.str "50", some "Food", some "2024-01-01", some "lunch"⟩
        []).2.2 (by decide) (by decide) (by decide)⟩

/-- C8: the backend accepts a negative amount — create with the number -5
succeeds and stores -5 — contradicting the positivity invariant the spec
asserts (and which the repository's own frontend validator isValidAmount,
requiring a parsed amount strictly greater than 0, expresses). -/
theorem create_negative_amount_bug :
    (createExpense "e1" ⟨JsVal.num (-5), some "Food", some "2024-01-01", none⟩ []).1.isErr
        = false
    ∧ (createExpense "e1" ⟨JsVal.num (-5), some "Food", some "2024-01-01", none⟩ []).2.map
          Expense.amount
        = [some (-5)]
    ∧ ¬ (0 < (-5 : ℚ)) := by
  refine ⟨?_, ?_, by norm_num⟩
  · norm_num [createExpense, truthy, truthyStr, HResult.isErr] <;> decide
  · norm_num [createExpense, truthy, truthyStr] <;> decide

theorem applyUpdate_emptyBody (old : Expense) : applyUpdate old emptyBody = old := rfl

theorem applyUpdate_id (old : Expense) (b : UpdateBody) :
    (applyUpdate old b).id = old.id := rfl

theorem updateExpense_isErr_iff (eid : String) (b : UpdateBody) (st : List Expense) :
    (updateExpense eid b st).1.isErr = true ↔ eid ∉ st.map Expense.id := by
  induction st with
  | nil => simp [updateExpense, HResult.isErr]
  | cons e t ih =>
      by_cases he : e.id = eid
      · simp [updateExpense, he, HResult.isErr]
      · have he' : ¬ eid = e.id := fun hh => he hh.symm
        have hproj : (updateExpense eid b (e :: t)).1 = (updateExpense eid b t).1 := by
          simp [updateExpense, he]
        rw [hproj, ih, List.map_cons, List.mem_cons]
        simp [he']

theorem updateExpense_err_frame (eid : String) (b : UpdateBody) (st : List Expense)
    (h : (updateExpense eid b st).1.isErr = true) :
    (updateExpense eid b st).2 = st := by
  induction st with
  | nil => rfl
  | cons e t ih =>
      by_cases he : e.id = eid
      · simp [updateExpense, he, HResult.isErr] at h
      · have h' : (updateExpense eid b t).1.isErr = true := by
          simpa [updateExpense, he] using h
        simp [updateExpense, he, ih h']

theorem updateExpense_map_id (eid : String) (b : UpdateBody) (st : List Expense) :
    (updateExpense eid b st).2.map Expense.id = st.map Expense.id := by
  induction st with
  | nil => rfl
  | cons e t ih =>
      by_cases he : e.id = eid
      · simp [updateExpense, he, applyUpdate_id]
      · simp [updateExpense, he, ih]

theorem updateExpense_emptyBody (eid : String) (st : List Expense) :
    (updateExpense eid emptyBody st).2 = st := by
  induction st with
  | nil => rfl
  | cons e t ih =>
      by_cases he : e.id = eid
      · simp [updateExpense, he, applyUpdate_emptyBody]
      · simp [updateExpense, he, ih]

theorem updateExpense_found (eid : String) (b : UpdateBody) (l₁ l₂ : List Expense)
    (old : Expense) (hnot : eid ∉ l₁.map Expense.id) (hid : old.id = eid) :
    updateExpense eid b (l₁ ++ old :: l₂)
      = (.ok 200 (applyUpdate old b), l₁ ++ applyUpdate old b :: l₂) := by
  induction l₁ with
  | nil => simp [updateExpense, hid]
  | cons e t ih =>
      have he : ¬ e.id = eid := by
        intro hh
        exact hnot (by simp [hh])
      have hnott : eid ∉ t.map Expense.id := fun hx => hnot (by simp [hx])
      simp [updateExpense, he, ih hnott]

/-- C5: update 404s exactly when no record carries the id, and then leaves the
store unchanged; the ids and positions of the records are never changed; an
empty partial update is a no-op on the store; when the id is present the first
matching record is replaced in place by the field merge, which keeps the id
and every unsupplied field. -/
theorem update_spec (eid : String) (b : UpdateBody) (st : List Expense) :
    ((updateExpense eid b st).1.isErr = true ↔ eid ∉ st.map Expense.id)
    ∧ ((updateExpense eid b st).1.isErr = true → (updateExpense eid b st).2 = st)
    ∧ (updateExpense eid b st).2.map Expense.id = st.map Expense.id
    ∧ (updateExpense eid emptyBody st).2 = st
    ∧ (∀ l₁ old l₂, st = l₁ ++ old :: l₂ → eid ∉ l₁.map Expense.id → old.id = eid →
        (updateExpense eid b st).1 = .ok 200 (applyUpdate old b)
        ∧ (updateExpense eid b st).2 = l₁ ++ applyUpdate old b :: l₂)
    ∧ (∀ old : Expense,
        (applyUpdate old b).id = old.id
        ∧ (b.amount = JsVal.undef → (applyUpdate old b).amount = old.amount)
        ∧ (b.category = none → (applyUpdate old b).category = old.category)
        ∧ (b.date = none → (applyUpdate old b).date = old.date)
        ∧ (b.description = none → (applyUpdate old b).description = old.description)
        ∧ applyUpdate old emptyBody = old) := by
  refine ⟨updateExpense_isErr_iff eid b st, updateExpense_err_frame eid b st,
    updateExpense_map_id eid b st, updateExpense_emptyBody eid st, ?_, ?_⟩
  · intro l₁ old l₂ hst hnot hid
    subst hst
    rw [updateExpense_found eid b l₁ l₂ old hnot hid]
    exact ⟨rfl, rfl⟩
  · intro old
    refine ⟨rfl, ?_, ?_, ?_, ?_, applyUpdate_emptyBody old⟩
    · intro h
      simp [applyUpdate, h]
    · intro h
      simp [applyUpdate, h]
    · intro h
      simp [applyUpdate, h]
    · intro h
      simp [applyUpdate, h]

/-- Witness for update_spec covering the missing-id frame, the id/position
preservation, the in-place replacement and the unsupplied-field frame. -/
theorem update_spec_witness :
    ((updateExpense "zz" emptyBody [demoBus]).2 = [demoBus])
    ∧ (updateExpense "b1" emptyBody [demoBus]).2.map Expense.id
        = [demoBus].map Expense.id
    ∧ ((updateExpense "b1" ⟨JsVal.undef, some "Food", none, none⟩ [demoBus]).1
          = .ok 200 (applyUpdate demoBus ⟨JsVal.undef, some "Food", none, none⟩)
        ∧ (updateExpense "b1" ⟨JsVal.undef, some "Food", none, none⟩ [demoBus]).2
          = [] ++ applyUpdate demoBus ⟨JsVal.undef, some "Food", none, none⟩ :: [])
    ∧ (applyUpdate demoBus emptyBody).amount = demoBus.amount
    ∧ (applyUpdate demoBus emptyBody).category = demoBus.category
    ∧ (applyUpdate demoBus emptyBody).date = demoBus.date
    ∧ (applyUpdate demoBus emptyBody).description = demoBus.description
    ∧ applyUpdate demoBus emptyBody = demoBus :=
  ⟨(update_spec "zz" emptyBody [demoBus]).2.1 (by decide),
    (update_spec "b1" emptyBody [demoBus]).2.2.1,
    (update_spec "b1" ⟨JsVal.undef, some "Food", none, none⟩ [demoBus]).2.2.2.2.1
      [] demoBus [] rfl (by decide) (by decide),
    ((update_spec "b1" emptyBody [demoBus]).2.2.2.2.2 demoBus).2.1 rfl,
    ((update_spec "b1" emptyBody [demoBus]).2.2.2.2.2 demoBus).2.2.1 rfl,
    ((update_spec "b1" emptyBody [demoBus]).2.2.2.2.2 demoBus).2.2.2.1 rfl,
    ((update_spec "b1" emptyBody [demoBus]).2.2.2.2.2 demoBus).2.2.2.2.1 rfl,
    ((update_spec "b1" emptyBody [demoBus]).2.2.2.2.2 demoBus).2.2.2.2.2⟩

theorem deleteExpense_isErr_iff (eid : String) (st : List Expense) :
    (deleteExpense eid st).1.isErr = true ↔ eid ∉ st.map Expense.id := by
  induction st with
  | nil => simp [deleteExpense, HResult.isErr]
  | cons e t ih =>
      by_cases he : e.id = eid
      · simp [deleteExpense, he, HResult.isErr]
      · have he' : ¬ eid = e.id := fun hh => he hh.symm
        have hproj : (deleteExpense eid (e :: t)).1 = (deleteExpense eid t).1 := by
          simp [deleteExpense, he]
        rw [hproj, ih, List.map_cons, List.mem_cons]
        simp [he']

theorem deleteExpense_err_frame (eid : String) (st : List Expense)
    (h : (deleteExpense eid st).1.isErr = true) :
    (deleteExpense eid st).2 = st := by
  induction st with
  | nil => rfl
  | cons e t ih =>
      by_cases he : e.id = eid
      · simp [deleteExpense, he, HResult.isErr] at h
      · have h' : (deleteExpense eid t).1.isErr = true := by
          simpa [deleteExpense, he] using h
        simp [deleteExpense, he, ih h']

theorem deleteExpense_sublist (eid : String) (st : List Expense) :
    List.Sublist (deleteExpense eid st).2 st := by
  induction st with
  | nil => simp [deleteExpense]
  | cons e t ih =>
      by_cases he : e.id = eid
      · simp only [deleteExpense, if_pos he]
        exact List.sublist_cons_self e t
      · simp only [deleteExpense, if_neg he]
        exact ih.cons₂ e

theorem deleteExpense_found (eid : String) (l₁ l₂ : List Expense) (doomed : Expense)
    (hnot : eid ∉ l₁.map Expense.id) (hid : doomed.id = eid) :
    deleteExpense eid (l₁ ++ doomed :: l₂) = (.ok 200 doomed, l₁ ++ l₂) := by
  induction l₁ with
  | nil => simp [deleteExpense, hid]
  | cons e t ih =>
      have he : ¬ e.id = eid := by
        intro hh
        exact hnot (by simp [hh])
      have hnott : eid ∉ t.map Expense.id := fun hx => hnot (by simp [hx])
      simp [deleteExpense, he, ih hnott]

theorem deleteExpense_decomp (eid : String) (st : List Expense)
    (h : (deleteExpense eid st).1.isErr = false) :
    ∃ l₁ d l₂, st = l₁ ++ d :: l₂ ∧ eid ∉ l₁.map Expense.id ∧ d.id = eid
      ∧ (deleteExpense eid st).2 = l₁ ++ l₂ := by
  induction st with
  | nil => simp [deleteExpense, HResult.isErr] at h
  | cons e t ih =>
      by_cases he : e.id = eid
      · exact ⟨[], e, t, by simp, by simp, he, by simp [deleteExpense, he]⟩
      · have h' : (deleteExpense eid t).1.isErr = false := by
          simpa [deleteExpense, he] using h
        obtain ⟨l₁, d, l₂, h1, h2, h3, h4⟩ := ih h'
        refine ⟨e :: l₁, d, l₂, by simp [h1], ?_, h3,
          by simp [deleteExpense, he, h4]⟩
        intro hx
        rw [List.map_cons, List.mem_cons] at hx
        rcases hx with hx' | hx'
        · exact he hx'.symm
        · exact h2 hx'

/-- C6: delete 404s exactly when no record carries the id, and then leaves the
store unchanged; otherwise it removes the first matching record and returns
it, preserving the relative order of the remaining records; when ids are
unique, the deleted id is absent from the resulting store and a second delete
of the same id 404s. -/
theorem delete_spec (eid : String) (st : List Expense) :
    ((deleteExpense eid st).1.isErr = true ↔ eid ∉ st.map Expense.id)
    ∧ ((deleteExpense eid st).1.isErr = true → (deleteExpense eid st).2 = st)
    ∧ List.Sublist (deleteExpense eid st).2 st
    ∧ (∀ l₁ doomed l₂, st = l₁ ++ doomed :: l₂ → eid ∉ l₁.map Expense.id →
        doomed.id = eid →
        (deleteExpense eid st).1 = .ok 200 doomed
        ∧ (deleteExpense eid st).2 = l₁ ++ l₂)
    ∧ ((st.map Expense.id).Nodup → (deleteExpense eid st).1.isErr = false →
        eid ∉ (deleteExpense eid st).2.map Expense.id
        ∧ (deleteExpense eid ((deleteExpense eid st).2)).1.isErr = true) := by
  refine ⟨deleteExpense_isErr_iff eid st, deleteExpense_err_frame eid st,
    deleteExpense_sublist eid st, ?_, ?_⟩
  · intro l₁ doomed l₂ hst hnot hid
    subst hst
    rw [deleteExpense_found eid l₁ l₂ doomed hnot hid]
    exact ⟨rfl, rfl⟩
  · intro hnd hok
    obtain ⟨l₁, d, l₂, h1, h2, h3, h4⟩ := deleteExpense_decomp eid st hok
    have hmap : st.map Expense.id = l₁.map Expense.id ++ d.id :: l₂.map Expense.id := by
      rw [h1]
      simp
    rw [hmap] at hnd
    have hmid := List.nodup_middle.mp hnd
    have hdn : d.id ∉ List.map Expense.id l₁ ++ List.map Expense.id l₂ :=
      (List.nodup_cons.mp hmid).1
    have hout : eid ∉ (deleteExpense eid st).2.map Expense.id := by
      rw [h4]
      intro hx
      rw [← h3] at hx
      apply hdn
      simpa using hx
    exact ⟨hout, (deleteExpense_isErr_iff eid _).mpr hout⟩

/-- Witness for delete_spec: missing-id frame, removal of the only record, and
the second delete of the same id failing. -/
theorem delete_spec_witness :
    ((deleteExpense "zz" [demoBus]).2 = [demoBus])
    ∧ ((deleteExpense "b1" [demoBus]).1 = .ok 200 demoBus
        ∧ (deleteExpense "b1" [demoBus]).2 = [] ++ [])
    ∧ ("b1" ∉ (deleteExpense "b1" [demoBus]).2.map Expense.id
        ∧ (deleteExpense "b1" ((deleteExpense "b1" [demoBus]).2)).1.isErr = true) :=
  ⟨(delete_spec "zz" [demoBus]).2.1 (by decide),
    (delete_spec "b1" [demoBus]).2.2.2.1 [] demoBus [] rfl (by decide) (by decide),
    (delete_spec "b1" [demoBus]).2.2.2.2 (by decide) (by decide)⟩

/-- C7 (amended): category create rejects an absent, empty or all-whitespace
name with the validation message, rejects a case-insensitive duplicate with
the conflict message, and otherwise appends the trimmed name and returns it
with status 201; however the validation failure and the conflict failure are
both reported with the same status class 400 — "bad input" and "conflict" do
not map to distinct status classes. -/
theorem category_create_spec (name : Option String) (cs : List String) :
    ((name = none ∨ (∃ s, name = some s ∧ trimStr s = "")) →
        (createCategory name cs).1 = .err 400 "Category name is required"
        ∧ (createCategory name cs).2 = cs)
    ∧ (∀ s, name = some s → trimStr s ≠ "" →
        (cs.any (fun c => matchesCI c (trimStr s)) = true →
            (createCategory name cs).1 = .err 400 "Category already exists"
            ∧ (createCategory name cs).2 = cs)
        ∧ (cs.any (fun c => matchesCI c (trimStr s)) = false →
            (createCategory name cs).1 = .ok 201 (trimStr s)
            ∧ (createCategory name cs).2 = cs ++ [trimStr s])) := by
  constructor
  · rintro (rfl | ⟨s, rfl, hts⟩)
    · exact ⟨rfl, rfl⟩
    · constructor <;> simp [createCategory, hts]
  · rintro s rfl hts
    have hs : ¬ s = "" := by
      intro h
      subst h
      exact hts rfl
    constructor
    · intro hany
      constructor <;> simp [createCategory, hs, hts, hany]
    · intro hany
      constructor <;> simp [createCategory, hs, hts, hany]

/-- C7 counterexample: against the seeded registry, the duplicate name "food"
(conflict) and the all-whitespace name " " (bad input) are rejected with the
same status 400 — the conflict and bad-input failures do not map to distinct
status classes. -/
theorem category_status_cex :
    (createCategory (some "food") defaultCategories).1
        = .err 400 "Category already exists"
    ∧ (createCategory (some " ") defaultCategories).1
        = .err 400 "Category name is required"
    ∧ (createCategory (some "food") defaultCategories).1.statusOf
        = (createCategory (some " ") defaultCategories).1.statusOf :=
  ⟨by decide, by decide, by decide⟩

/-- Witness for category_create_spec: whitespace rejection, case-insensitive
conflict, and a successful trimmed append against the seeded registry. -/
theorem category_create_spec_witness :
    ((createCategory (some " ") defaultCategories).1
        = .err 400 "Category name is required"
      ∧ (createCategory (some " ") defaultCategories).2 = defaultCategories)
    ∧ ((createCategory (some "food") defaultCategories).1
        = .err 400 "Category already exists"
      ∧ (createCategory (some "food") defaultCategories).2 = defaultCategories)
    ∧ ((createCategory (some " Gym ") defaultCategories).1
        = .ok 201 (trimStr " Gym ")
      ∧ (createCategory (some " Gym ") defaultCategories).2
        = defaultCategories ++ [trimStr " Gym "]) :=
  ⟨(category_create_spec (some " ") defaultCategories).1
      (Or.inr ⟨" ", rfl, by decide⟩),
    ((category_create_spec (some "food") defaultCategories).2 "food" rfl
      (by decide)).1 (by decide),
    ((category_create_spec (some " Gym ") defaultCategories).2 " Gym " rfl
      (by decide)).2 (by decide)⟩

end ExpenseTracker
